import Mathlib

/-!
Verification of the grouped temporal feature engine of the Rossmann
preprocessing notebook (`examples/tabular-data-rossmann/01-Download-Convert.ipynb`).

The development shallowly embeds the notebook's pandas/cudf computations:

* the `Week` calendar derivation (`(((Date - Jan1).days)/7).astype('int16') + 1`
  with 53 replaced by 52);
* the `get_elapsed`-style event-distance cell (store boundary masks built from
  `Store.diff()`, `tmp` masking, `ffill`/`bfill`, and day deltas);
* the `merge` left-outer-join helper;
* the per-store `rolling(7, min_periods=1).sum()` windows over the two sort
  orders;
* the train/validation split by Python negative slicing.

Columns of a sorted frame are modelled positionally, as functions from the row
index to the cell value; dates are integer day numbers, so that subtraction is
the day count of the corresponding timedelta.
-/

namespace Rossmann

/- ## Calendar feature deriver (`Week` cell, notebook lines 215-222) -/

/-- Gregorian leap-year rule, as used by `datetime64` date arithmetic. -/
def isLeap (y : Nat) : Bool := (y % 4 == 0 && y % 100 != 0) || y % 400 == 0

/-- Number of days in month `m` (1-12) for a given leap-year flag. -/
def daysInMonthB (leap : Bool) (m : Nat) : Nat :=
  if m = 2 then (if leap then 29 else 28)
  else if m = 4 ∨ m = 6 ∨ m = 9 ∨ m = 11 then 30
  else 31

/-- Number of days in month `m` (1-12) of year `y`. -/
def daysInMonth (y m : Nat) : Nat := daysInMonthB (isLeap y) m

/-- Days from Jan 1 to the first day of month `m` (cumulative month lengths). -/
def monthOffsetB (leap : Bool) (m : Nat) : Nat :=
  ((List.range (m - 1)).map (fun k => daysInMonthB leap (k + 1))).sum

/-- A calendar date `year-month-day`. -/
structure Date where
  year : Nat
  month : Nat
  day : Nat
deriving DecidableEq, Repr

/-- A date is valid when its month is 1-12 and its day fits the month. -/
def ValidDate (d : Date) : Prop :=
  1 ≤ d.month ∧ d.month ≤ 12 ∧ 1 ≤ d.day ∧ d.day ≤ daysInMonth d.year d.month

instance (d : Date) : Decidable (ValidDate d) := by
  unfold ValidDate; infer_instance

/-- Source: `(df['Date'] - df['Year'].astype('datetime64[ns]')).dt.days`: the calendar
day offset of the date from Jan 1 of its own year. -/
def daysSinceJan1 (d : Date) : Nat :=
  monthOffsetB (isLeap d.year) d.month + (d.day - 1)

/-- The `Week` column:
`df['Week'] = (((df['Date'] - Jan1).dt.days)/7).astype('int16') + 1` followed by
`df['Week'] = df.Week.where(df['Week'] != 53, 52)`.  The float division followed
by `astype('int16')` truncates a non-negative quotient, which is exactly `Nat`
division. -/
def weekOfYear (d : Date) : Nat :=
  let w := daysSinceJan1 d / 7 + 1
  if w = 53 then 52 else w

theorem daysInMonthB_le (leap : Bool) (m : Nat) : daysInMonthB leap m ≤ 31 := by
  unfold daysInMonthB
  split
  · cases leap <;> simp
  · split <;> simp

theorem daysSinceJan1_le (d : Date) (hd : ValidDate d) : daysSinceJan1 d ≤ 365 := by
  obtain ⟨hm1, hm12, hd1, hdm⟩ := hd
  have hd31 : d.day ≤ 31 := le_trans hdm (daysInMonthB_le _ _)
  have key : ∀ (b : Bool), ∀ m < 13, ∀ dd < 32,
      monthOffsetB b m + (dd - 1) ≤ 365 := by decide
  have := key (isLeap d.year) d.month (by omega) d.day (by omega)
  simpa [daysSinceJan1] using this

/-- C6: for every valid date, the derived `Week` equals
`floor(days_since_jan1 / 7) + 1` with a resulting 53 replaced by 52, and
consequently `Week` lies in `[1, 52]` and is never 53. -/
theorem week_clamp (d : Date) (hd : ValidDate d) :
    weekOfYear d =
      (if daysSinceJan1 d / 7 + 1 = 53 then 52 else daysSinceJan1 d / 7 + 1) ∧
    1 ≤ weekOfYear d ∧ weekOfYear d ≤ 52 := by
  have h365 := daysSinceJan1_le d hd
  have hq : daysSinceJan1 d / 7 ≤ 52 := by omega
  unfold weekOfYear
  refine ⟨rfl, ?_, ?_⟩ <;> simp only [] <;> split <;> omega

/-- Witness for `week_clamp` at the concrete date 2015-12-31. -/
theorem week_clamp_witness :
    ValidDate ⟨2015, 12, 31⟩ ∧
      (weekOfYear ⟨2015, 12, 31⟩ =
        (if daysSinceJan1 ⟨2015, 12, 31⟩ / 7 + 1 = 53 then 52
          else daysSinceJan1 ⟨2015, 12, 31⟩ / 7 + 1) ∧
      1 ≤ weekOfYear ⟨2015, 12, 31⟩ ∧ weekOfYear ⟨2015, 12, 31⟩ ≤ 52) :=
  ⟨by decide, week_clamp ⟨2015, 12, 31⟩ (by decide)⟩

/- ## Event-distance engine (`get_elapsed` cell, notebook lines 603-646)

The appended dataframe is sorted by `['Store', 'Date']`; its columns are
modelled positionally.  `store i`, `date i` and `f i` are the values of the
group-key, time-key and indicator column at row index `i` (meaningful for
`i < n`); dates are integer day numbers. -/

/-- A sorted frame: `n` rows with store, date and one indicator column `f`. -/
structure Frame where
  n : Nat
  store : Nat → Int
  date : Nat → Int
  f : Nat → Int

/-- Source: `first_indices = pdf.Store.diff() != 0`: true at row 0 (`diff` is NaN
there, and NaN != 0), and wherever the store differs from the previous row. -/
def firstMask (fr : Frame) (i : Nat) : Bool :=
  i == 0 || fr.store i != fr.store (i - 1)

/-- Source: `last_indices = pdf.Store.diff().iloc[1:].append(pd.Series([1]))`
re-indexed to the frame: truthy at the final row (the appended 1), and
wherever the next row's store differs from this row's. -/
def lastMask (fr : Frame) (i : Nat) : Bool :=
  i + 1 == fr.n || fr.store (i + 1) != fr.store i

/-- Source: `pdf['tmp'] = pdf.Date` followed by
`pdf.loc[(pdf[field] == 0) & idx_mask, 'tmp'] = nan` where
`idx_mask = ~(first_indices | last_indices)`: the date survives (is an anchor)
unless the indicator is 0 at an interior row of the store's range. -/
def tmpCol (fr : Frame) (i : Nat) : Option Int :=
  if fr.f i = 0 ∧ firstMask fr i = false ∧ lastMask fr i = false then none
  else some (fr.date i)

/-- Pandas `Series.ffill` read at index `i`: the value at the most recent index
`≤ i` that is not missing. -/
def ffill (t : Nat → Option Int) : Nat → Option Int
  | 0 => t 0
  | i + 1 =>
    match t (i + 1) with
    | some v => some v
    | none => ffill t i

/-- Helper for `bfill`: scan `k` positions starting at index `i` for the
first non-missing value. -/
def bfillAux (t : Nat → Option Int) : Nat → Nat → Option Int
  | 0, _ => none
  | k + 1, i =>
    match t i with
    | some v => some v
    | none => bfillAux t k (i + 1)

/-- Pandas `Series.bfill` on a frame of `n` rows, read at index `i`: the value at the
nearest index in `[i, n)` that is not missing. -/
def bfill (t : Nat → Option Int) (n i : Nat) : Option Int :=
  bfillAux t (n - i) i

/-- Source: `pdf['After'+field] = (pdf['Date'] - pdf.tmp.ffill()).astype('timedelta64[D]')`:
day count since the forward-filled anchor date. -/
def afterF (fr : Frame) (i : Nat) : Option Int :=
  (ffill (tmpCol fr) i).map (fun d => fr.date i - d)

/-- Source: `pdf['Before'+field] = (pdf.tmp.bfill() - pdf['Date']).astype('timedelta64[D]')`:
day count until the backward-filled anchor date. -/
def beforeF (fr : Frame) (i : Nat) : Option Int :=
  (bfill (tmpCol fr) fr.n i).map (fun d => d - fr.date i)

/-- A row of the appended dataframe before sorting. -/
structure ERow where
  store : Int
  date : Int
  f : Int
deriving DecidableEq, Repr

/-- Lexicographic `['Store', 'Date']` order used by `df.sort_values`. -/
def rowLe (a b : ERow) : Prop :=
  a.store < b.store ∨ (a.store = b.store ∧ a.date ≤ b.date)

instance : DecidableRel rowLe := fun a b => by
  unfold rowLe; infer_instance

/-- Source: `df.sort_values(by=['Store', 'Date'])` on a list of rows. -/
def sortRows (l : List ERow) : List ERow := List.insertionSort rowLe l

/-- View a list of rows as a positional frame (cells beyond the length read a
default row). -/
def frameOfList (l : List ERow) : Frame where
  n := l.length
  store := fun i => (l.getD i ⟨0, 0, 0⟩).store
  date := fun i => (l.getD i ⟨0, 0, 0⟩).date
  f := fun i => (l.getD i ⟨0, 0, 0⟩).f

/-- A row is an anchor for the indicator when its `tmp` date survives the
masking: the indicator is non-zero, or the row is at a store boundary. -/
def IsAnchor (fr : Frame) (i : Nat) : Prop :=
  fr.f i ≠ 0 ∨ firstMask fr i = true ∨ lastMask fr i = true

instance (fr : Frame) (i : Nat) : Decidable (IsAnchor fr i) := by
  unfold IsAnchor; infer_instance

theorem tmpCol_eq_none_iff (fr : Frame) (i : Nat) :
    tmpCol fr i = none ↔ ¬ IsAnchor fr i := by
  unfold tmpCol IsAnchor
  split
  · next h =>
    simp only [true_iff]
    push_neg
    refine ⟨h.1, by simp [h.2.1], by simp [h.2.2]⟩
  · next h =>
    push_neg at h
    simp only [reduceCtorEq, false_iff, not_not]
    by_cases h1 : fr.f i = 0
    · by_cases h2 : firstMask fr i = false
      · exact Or.inr (Or.inr (by simpa using h h1 h2))
      · exact Or.inr (Or.inl (by simpa using h2))
    · exact Or.inl h1

theorem tmpCol_eq_some_of_anchor (fr : Frame) (i : Nat) (h : IsAnchor fr i) :
    tmpCol fr i = some (fr.date i) := by
  unfold tmpCol
  split
  · next hc =>
    exact absurd h ((tmpCol_eq_none_iff fr i).mp (by unfold tmpCol; simp [hc])).elim
  · rfl

theorem isAnchor_of_tmpCol_isSome (fr : Frame) (i : Nat)
    (h : (tmpCol fr i).isSome = true) : IsAnchor fr i := by
  by_contra hn
  rw [← tmpCol_eq_none_iff fr i] at hn
  simp [hn] at h

theorem firstMask_zero (fr : Frame) : firstMask fr 0 = true := by
  simp [firstMask]

theorem lastMask_final (fr : Frame) (h : 0 < fr.n) : lastMask fr (fr.n - 1) = true := by
  unfold lastMask
  have : fr.n - 1 + 1 = fr.n := by omega
  simp [this]

theorem tmpCol_zero (fr : Frame) : tmpCol fr 0 = some (fr.date 0) :=
  tmpCol_eq_some_of_anchor fr 0 (Or.inr (Or.inl (firstMask_zero fr)))

theorem tmpCol_final (fr : Frame) (h : 0 < fr.n) :
    tmpCol fr (fr.n - 1) = some (fr.date (fr.n - 1)) :=
  tmpCol_eq_some_of_anchor fr (fr.n - 1) (Or.inr (Or.inr (lastMask_final fr h)))

/-- Reading `ffill` at `i` returns the value at the greatest index `j ≤ i` where
the series is non-missing, provided index 0 is non-missing. -/
theorem ffill_spec (t : Nat → Option Int) (h0 : (t 0).isSome = true) (i : Nat) :
    ∃ j, j ≤ i ∧ ffill t i = t j ∧ (t j).isSome = true ∧
      ∀ k, j < k → k ≤ i → t k = none := by
  induction i with
  | zero => exact ⟨0, le_refl 0, rfl, h0, fun k hk hk' => absurd (lt_of_lt_of_le hk hk') (by omega)⟩
  | succ i ih =>
    obtain ⟨j, hji, hfj, hsj, hnone⟩ := ih
    unfold ffill
    cases ht : t (i + 1) with
    | some v =>
      exact ⟨i + 1, le_refl _, by rw [ht], by simp [ht],
        fun k hk hk' => absurd (lt_of_lt_of_le hk hk') (by omega)⟩
    | none =>
      refine ⟨j, by omega, hfj, hsj, fun k hk hk' => ?_⟩
      rcases Nat.lt_or_ge k (i + 1) with hlt | hge
      · exact hnone k hk (by omega)
      · have : k = i + 1 := by omega
        rw [this]; exact ht

/-- If a series value at `i` is present, `ffill` at `i` is that value. -/
theorem ffill_eq_of_some (t : Nat → Option Int) (i : Nat) (v : Int)
    (h : t i = some v) : ffill t i = some v := by
  cases i with
  | zero => simpa [ffill] using h
  | succ i => simp [ffill, h]

/-- Reading `bfillAux` with fuel `k` at `i` returns the value at the least offset
`m < k` where the series is non-missing, when one exists. -/
theorem bfillAux_spec (t : Nat → Option Int) (k : Nat) :
    ∀ i, (∃ m, m < k ∧ (t (i + m)).isSome = true) →
      ∃ m, m < k ∧ bfillAux t k i = t (i + m) ∧ (t (i + m)).isSome = true ∧
        ∀ m', m' < m → t (i + m') = none := by
  induction k with
  | zero => intro i ⟨m, hm, _⟩; omega
  | succ k ih =>
    intro i ⟨m, hm, hsome⟩
    unfold bfillAux
    cases ht : t i with
    | some v =>
      exact ⟨0, by omega, by simp [ht], by simp [ht], fun m' hm' => by omega⟩
    | none =>
      have hm0 : m ≠ 0 := by
        intro h; rw [h] at hsome; simp [ht] at hsome
      obtain ⟨m', hm', hb, hs, hnone⟩ := ih (i + 1)
        ⟨m - 1, by omega, by rw [show i + 1 + (m - 1) = i + m from by omega]; exact hsome⟩
      refine ⟨m' + 1, by omega, ?_, ?_, ?_⟩
      · have : i + (m' + 1) = i + 1 + m' := by omega
        rw [this]; exact hb
      · have : i + (m' + 1) = i + 1 + m' := by omega
        rw [this]; exact hs
      · intro m'' hm''
        cases m'' with
        | zero => simpa using ht
        | succ m'' =>
          have : i + (m'' + 1) = i + 1 + m'' := by omega
          rw [this]; exact hnone m'' (by omega)

/-- Reading `bfill` on an `n`-row frame returns the value at the least index `j ≥ i`
where the series is non-missing, provided the final row is non-missing. -/
theorem bfill_spec (t : Nat → Option Int) (n i : Nat) (hi : i < n)
    (hlast : (t (n - 1)).isSome = true) :
    ∃ j, i ≤ j ∧ j < n ∧ bfill t n i = t j ∧ (t j).isSome = true ∧
      ∀ k, i ≤ k → k < j → t k = none := by
  obtain ⟨m, hm, hb, hs, hnone⟩ := bfillAux_spec t (n - i) i
    ⟨n - 1 - i, by omega, by rw [show i + (n - 1 - i) = n - 1 from by omega]; exact hlast⟩
  refine ⟨i + m, by omega, by omega, hb, hs, fun k hk hk' => ?_⟩
  have := hnone (k - i) (by omega)
  have heq : i + (k - i) = k := by omega
  rwa [heq] at this

/-- If a series value at `i < n` is present, `bfill` at `i` is that value. -/
theorem bfill_eq_of_some (t : Nat → Option Int) (n i : Nat) (hi : i < n) (v : Int)
    (h : t i = some v) : bfill t n i = some v := by
  unfold bfill
  have : n - i = (n - i - 1) + 1 := by omega
  rw [this]
  simp [bfillAux, h]

/-- The appended dataframe after `df.sort_values(by=['Store', 'Date'])`:
adjacent rows are in lexicographic `(Store, Date)` order. -/
def SortedFrame (fr : Frame) : Prop :=
  ∀ i, i < fr.n - 1 →
    fr.store i < fr.store (i + 1) ∨
      (fr.store i = fr.store (i + 1) ∧ fr.date i ≤ fr.date (i + 1))

instance (fr : Frame) : Decidable (SortedFrame fr) := by
  unfold SortedFrame; infer_instance

/-- Walking forward from `j` to `k` without crossing a `first_indices`
boundary stays in the same store group, with non-decreasing dates. -/
theorem chain_fwd (fr : Frame) (hs : SortedFrame fr) (j : Nat) :
    ∀ k, j ≤ k → k < fr.n →
      (∀ m, j < m → m ≤ k → firstMask fr m = false) →
      fr.store j = fr.store k ∧ fr.date j ≤ fr.date k := by
  intro k
  induction k with
  | zero =>
    intro hjk _ _
    have : j = 0 := by omega
    rw [this]
    exact ⟨rfl, le_refl _⟩
  | succ k ih =>
    intro hjk hk hmask
    rcases Nat.lt_or_ge j (k + 1) with hlt | hge
    · have hjk' : j ≤ k := by omega
      obtain ⟨hst, hdt⟩ := ih hjk' (by omega) (fun m hm hm' => hmask m hm (by omega))
      have hfm := hmask (k + 1) (by omega) (le_refl _)
      unfold firstMask at hfm
      simp only [Bool.or_eq_false_iff, beq_eq_false_iff_ne, bne_eq_false_iff_eq] at hfm
      have hsteq : fr.store (k + 1) = fr.store k := by
        have := hfm.2
        simpa using this
      rcases hs k (by omega) with hcase | hcase
      · rw [hsteq] at hcase; exact absurd hcase (lt_irrefl _)
      · exact ⟨by rw [hst, hcase.1], le_trans hdt hcase.2⟩
    · have : j = k + 1 := by omega
      rw [this]
      exact ⟨rfl, le_refl _⟩

/-- Walking forward from `j` to `k` without crossing a `last_indices`
boundary stays in the same store group, with non-decreasing dates. -/
theorem chain_bwd (fr : Frame) (hs : SortedFrame fr) (j : Nat) :
    ∀ k, j ≤ k → k < fr.n →
      (∀ m, j ≤ m → m < k → lastMask fr m = false) →
      fr.store j = fr.store k ∧ fr.date j ≤ fr.date k := by
  intro k
  induction k with
  | zero =>
    intro hjk _ _
    have : j = 0 := by omega
    rw [this]
    exact ⟨rfl, le_refl _⟩
  | succ k ih =>
    intro hjk hk hmask
    rcases Nat.lt_or_ge j (k + 1) with hlt | hge
    · have hjk' : j ≤ k := by omega
      obtain ⟨hst, hdt⟩ := ih hjk' (by omega) (fun m hm hm' => hmask m hm (by omega))
      have hlm := hmask k (by omega) (by omega)
      unfold lastMask at hlm
      simp only [Bool.or_eq_false_iff, beq_eq_false_iff_ne, bne_eq_false_iff_eq] at hlm
      have hsteq : fr.store (k + 1) = fr.store k := by
        have := hlm.2
        simpa using this
      rcases hs k (by omega) with hcase | hcase
      · rw [hsteq] at hcase; exact absurd hcase (lt_irrefl _)
      · exact ⟨by rw [hst, hcase.1], le_trans hdt hcase.2⟩
    · have : j = k + 1 := by omega
      rw [this]
      exact ⟨rfl, le_refl _⟩

/-- First or last row of a store's contiguous range, stated positionally. -/
def IsGroupFirst (fr : Frame) (i : Nat) : Prop :=
  i = 0 ∨ fr.store (i - 1) ≠ fr.store i

/-- Last row of a store's contiguous range, stated positionally. -/
def IsGroupLast (fr : Frame) (i : Nat) : Prop :=
  i + 1 = fr.n ∨ fr.store (i + 1) ≠ fr.store i

/-- A single-store frame whose indicator is 0 everywhere except the third row:
rows `(store 1, date 10, f 0)`, `(1, 11, 0)`, `(1, 12, 1)`. -/
def exFrameC1 : Frame := frameOfList [⟨1, 10, 0⟩, ⟨1, 11, 0⟩, ⟨1, 12, 1⟩]

/-- C1 counterexample: in `exFrameC1` the group's first row carries no event
(`f = 0`), yet its `tmp` date survives the masking (it is treated as an
anchor), and `After_F` at the second row measures the distance 1 to that
non-event boundary row instead of being missing. -/
theorem boundary_rows_are_anchors :
    exFrameC1.f 0 = 0 ∧ (tmpCol exFrameC1 0).isSome = true ∧
      afterF exFrameC1 1 = some 1 := by decide

/-- C1 amended: a row's `tmp` date survives the masking (the row acts as an
anchor) iff the indicator is non-zero at that row OR the row is the first or
last row of its store's range — boundary rows ARE synthesized as anchors even
when the indicator is zero there. -/
theorem anchor_characterization (fr : Frame) (i : Nat) (hi : i < fr.n) :
    (tmpCol fr i).isSome = true ↔
      (fr.f i ≠ 0 ∨ IsGroupFirst fr i ∨ IsGroupLast fr i) := by
  constructor
  · intro h
    rcases isAnchor_of_tmpCol_isSome fr i h with hf | hm | hm
    · exact Or.inl hf
    · unfold firstMask at hm
      simp only [Bool.or_eq_true, beq_iff_eq, bne_iff_ne, ne_eq] at hm
      rcases hm with hm | hm
      · exact Or.inr (Or.inl (Or.inl hm))
      · exact Or.inr (Or.inl (Or.inr (fun he => hm he.symm)))
    · unfold lastMask at hm
      simp only [Bool.or_eq_true, beq_iff_eq, bne_iff_ne, ne_eq] at hm
      rcases hm with hm | hm
      · exact Or.inr (Or.inr (Or.inl hm))
      · exact Or.inr (Or.inr (Or.inr hm))
  · intro h
    have ha : IsAnchor fr i := by
      rcases h with hf | hm | hm
      · exact Or.inl hf
      · refine Or.inr (Or.inl ?_)
        unfold firstMask
        rcases hm with hm | hm
        · simp [hm]
        · simp only [Bool.or_eq_true, beq_iff_eq, bne_iff_ne, ne_eq]
          exact Or.inr (fun he => hm he.symm)
      · refine Or.inr (Or.inr ?_)
        unfold lastMask
        rcases hm with hm | hm
        · simp [hm]
        · simp only [Bool.or_eq_true, beq_iff_eq, bne_iff_ne, ne_eq]
          exact Or.inr hm
    rw [tmpCol_eq_some_of_anchor fr i ha]
    rfl

/-- Witness for `anchor_characterization` at row 0 of the concrete frame. -/
theorem anchor_characterization_witness :
    (0 < exFrameC1.n) ∧
      ((tmpCol exFrameC1 0).isSome = true ↔
        (exFrameC1.f 0 ≠ 0 ∨ IsGroupFirst exFrameC1 0 ∨ IsGroupLast exFrameC1 0)) :=
  ⟨by decide, anchor_characterization exFrameC1 0 (by decide)⟩

/-- A single-store frame with the indicator 0 at every row:
rows `(store 1, date 10, f 0)`, `(1, 11, 0)`, `(1, 12, 0)`. -/
def exFrameC2 : Frame := frameOfList [⟨1, 10, 0⟩, ⟨1, 11, 0⟩, ⟨1, 12, 0⟩]

/-- C2 counterexample: in a group with zero occurrences of the indicator,
`After_F` and `Before_F` are NOT missing — every row gets a value, anchored to
the group's first and last rows (`After = [0, 1, 0]`, `Before = [0, 1, 0]`). -/
theorem no_event_group_not_missing :
    (∀ i < exFrameC2.n, exFrameC2.f i = 0) ∧
      afterF exFrameC2 0 = some 0 ∧ afterF exFrameC2 1 = some 1 ∧
      afterF exFrameC2 2 = some 0 ∧
      beforeF exFrameC2 0 = some 0 ∧ beforeF exFrameC2 1 = some 1 ∧
      beforeF exFrameC2 2 = some 0 := by decide

/-- C2 amended: for a frame whose indicator is zero at every row, `After_F`
and `Before_F` are nevertheless defined (non-missing) at every row, because
the store-boundary rows act as anchors; missing values do not propagate. -/
theorem no_event_group_defined (fr : Frame) (hf : ∀ i < fr.n, fr.f i = 0)
    (i : Nat) (hi : i < fr.n) :
    (afterF fr i).isSome = true ∧ (beforeF fr i).isSome = true := by
  constructor
  · obtain ⟨j, _, hfj, hsj, _⟩ :=
      ffill_spec (tmpCol fr) (by rw [tmpCol_zero]; rfl) i
    unfold afterF
    rw [hfj]
    obtain ⟨v, hv⟩ := Option.isSome_iff_exists.mp hsj
    simp [hv]
  · obtain ⟨j, _, _, hbj, hsj, _⟩ :=
      bfill_spec (tmpCol fr) fr.n i hi
        (by rw [tmpCol_final fr (by omega)]; rfl)
    unfold beforeF
    rw [hbj]
    obtain ⟨v, hv⟩ := Option.isSome_iff_exists.mp hsj
    simp [hv]

/-- Witness for `no_event_group_defined` at row 1 of the concrete frame. -/
theorem no_event_group_defined_witness :
    (∀ i < exFrameC2.n, exFrameC2.f i = 0) ∧ 1 < exFrameC2.n ∧
      ((afterF exFrameC2 1).isSome = true ∧ (beforeF exFrameC2 1).isSome = true) :=
  ⟨by decide, by decide, no_event_group_defined exFrameC2 (by decide) 1 (by decide)⟩

/-- C3: over a frame sorted by `['Store', 'Date']`, `After_F` at row `i` is
the (non-negative) day count back to the nearest anchor at or before `i`,
which lies in `i`'s store group; `Before_F` is the day count forward to the
nearest anchor at or after `i`; and both are 0 at a row that is itself an
anchor. -/
theorem event_distance_nearest_anchor (fr : Frame) (hs : SortedFrame fr)
    (i : Nat) (hi : i < fr.n) :
    (∃ j, j ≤ i ∧ IsAnchor fr j ∧ fr.store j = fr.store i ∧
      (∀ k, j < k → k ≤ i → ¬ IsAnchor fr k) ∧
      afterF fr i = some (fr.date i - fr.date j) ∧ 0 ≤ fr.date i - fr.date j) ∧
    (∃ j, i ≤ j ∧ j < fr.n ∧ IsAnchor fr j ∧ fr.store j = fr.store i ∧
      (∀ k, i ≤ k → k < j → ¬ IsAnchor fr k) ∧
      beforeF fr i = some (fr.date j - fr.date i) ∧ 0 ≤ fr.date j - fr.date i) ∧
    (IsAnchor fr i → afterF fr i = some 0 ∧ beforeF fr i = some 0) := by
  refine ⟨?_, ?_, ?_⟩
  · obtain ⟨j, hji, hfj, hsj, hnone⟩ :=
      ffill_spec (tmpCol fr) (by rw [tmpCol_zero]; rfl) i
    have haj : IsAnchor fr j := isAnchor_of_tmpCol_isSome fr j hsj
    have htj : tmpCol fr j = some (fr.date j) := tmpCol_eq_some_of_anchor fr j haj
    have hchain : fr.store j = fr.store i ∧ fr.date j ≤ fr.date i := by
      refine chain_fwd fr hs j i hji hi (fun m hm hm' => ?_)
      have hn := hnone m hm hm'
      unfold tmpCol at hn
      by_contra hfm
      simp only [Bool.not_eq_false] at hfm
      split at hn
      · next hc => exact absurd hfm (by simp [hc.2.1])
      · exact absurd hn (by simp)
    refine ⟨j, hji, haj, hchain.1, fun k hk hk' ha => ?_, ?_, by omega⟩
    · exact absurd (hnone k hk hk') (by rw [tmpCol_eq_some_of_anchor fr k ha]; simp)
    · unfold afterF
      rw [hfj, htj]
      rfl
  · obtain ⟨j, hij, hjn, hbj, hsj, hnone⟩ :=
      bfill_spec (tmpCol fr) fr.n i hi (by rw [tmpCol_final fr (by omega)]; rfl)
    have haj : IsAnchor fr j := isAnchor_of_tmpCol_isSome fr j hsj
    have htj : tmpCol fr j = some (fr.date j) := tmpCol_eq_some_of_anchor fr j haj
    have hchain : fr.store i = fr.store j ∧ fr.date i ≤ fr.date j := by
      refine chain_bwd fr hs i j hij hjn (fun m hm hm' => ?_)
      have hn := hnone m hm hm'
      unfold tmpCol at hn
      by_contra hlm
      simp only [Bool.not_eq_false] at hlm
      split at hn
      · next hc => exact absurd hlm (by simp [hc.2.2])
      · exact absurd hn (by simp)
    refine ⟨j, hij, hjn, haj, hchain.1.symm, fun k hk hk' ha => ?_, ?_, by omega⟩
    · exact absurd (hnone k hk hk') (by rw [tmpCol_eq_some_of_anchor fr k ha]; simp)
    · unfold beforeF
      rw [hbj, htj]
      rfl
  · intro ha
    have ht : tmpCol fr i = some (fr.date i) := tmpCol_eq_some_of_anchor fr i ha
    constructor
    · unfold afterF
      rw [ffill_eq_of_some (tmpCol fr) i (fr.date i) ht]
      simp
    · unfold beforeF
      rw [bfill_eq_of_some (tmpCol fr) fr.n i hi (fr.date i) ht]
      simp

/-- Witness for `event_distance_nearest_anchor` at row 1 of `exFrameC1`. -/
theorem event_distance_nearest_anchor_witness :
    SortedFrame exFrameC1 ∧ 1 < exFrameC1.n ∧
      ((∃ j, j ≤ 1 ∧ IsAnchor exFrameC1 j ∧ exFrameC1.store j = exFrameC1.store 1 ∧
        (∀ k, j < k → k ≤ 1 → ¬ IsAnchor exFrameC1 k) ∧
        afterF exFrameC1 1 = some (exFrameC1.date 1 - exFrameC1.date j) ∧
        0 ≤ exFrameC1.date 1 - exFrameC1.date j) ∧
      (∃ j, 1 ≤ j ∧ j < exFrameC1.n ∧ IsAnchor exFrameC1 j ∧
        exFrameC1.store j = exFrameC1.store 1 ∧
        (∀ k, 1 ≤ k → k < j → ¬ IsAnchor exFrameC1 k) ∧
        beforeF exFrameC1 1 = some (exFrameC1.date j - exFrameC1.date 1) ∧
        0 ≤ exFrameC1.date j - exFrameC1.date 1) ∧
      (IsAnchor exFrameC1 1 → afterF exFrameC1 1 = some 0 ∧ beforeF exFrameC1 1 = some 0)) :=
  ⟨by decide, by decide, event_distance_nearest_anchor exFrameC1 (by decide) 1 (by decide)⟩

/- ## Rolling aggregation engine (notebook lines 719-721)

`bwd = df[['Store']+event_fields].sort_index().groupby("Store").rolling(7, min_periods=1).sum()`
`fwd = df[['Store']+event_fields].sort_index(ascending=False).groupby("Store").rolling(7, min_periods=1).sum()`

The `groupby` confines each window to one store, so the computation is
modelled per group: a group is a list of rows of one store, and the window
runs over the group sorted by the `Date` index (ascending for `bwd`,
descending for `fwd`). -/

/-- Source: `rolling(w, min_periods=1).sum()` over one column: at position `i`, the
sum of the window of the (up to) `w` values ending at and including `i`. -/
def trailingSum (w : Nat) (xs : List Int) : List Int :=
  (List.range xs.length).map (fun i => ((xs.take (i + 1)).drop (i + 1 - w)).sum)

/-- Ascending `Date` order (`sort_index()`). -/
def dateLe (a b : ERow) : Prop := a.date ≤ b.date

/-- Descending `Date` order (`sort_index(ascending=False)`). -/
def dateGe (a b : ERow) : Prop := b.date ≤ a.date

/-- Strict descending `Date` order, used to pin down sort results when dates
are distinct. -/
def dateGt (a b : ERow) : Prop := b.date < a.date

instance : DecidableRel dateLe := fun a b => by unfold dateLe; infer_instance

instance : DecidableRel dateGe := fun a b => by unfold dateGe; infer_instance

instance : IsTotal ERow dateLe := ⟨fun a b => le_total a.date b.date⟩

instance : IsTrans ERow dateLe := ⟨fun _ _ _ h h' => le_trans h h'⟩

instance : IsTotal ERow dateGe := ⟨fun a b => le_total b.date a.date⟩

instance : IsTrans ERow dateGe := ⟨fun _ _ _ h h' => le_trans h' h⟩

/-- One store's rows sorted by ascending date. -/
def sortAsc (g : List ERow) : List ERow := List.insertionSort dateLe g

/-- One store's rows sorted by descending date. -/
def sortDesc (g : List ERow) : List ERow := List.insertionSort dateGe g

/-- Column `<F>_bw`: trailing window-7 sums of the indicator over the group in
ascending date order. -/
def bwdSums (g : List ERow) : List Int := trailingSum 7 ((sortAsc g).map (·.f))

/-- Column `<F>_fw`: the identical windowed sum over the group in descending date
order. -/
def fwdSums (g : List ERow) : List Int := trailingSum 7 ((sortDesc g).map (·.f))

theorem sorted_dateGt_of_sorted_dateGe (l : List ERow)
    (hs : List.Pairwise dateGe l) (hnd : (l.map (·.date)).Nodup) :
    List.Pairwise dateGt l := by
  have hne : List.Pairwise (fun a b : ERow => a.date ≠ b.date) l :=
    List.pairwise_map.mp hnd
  exact (hs.and hne).imp (fun h => lt_of_le_of_ne h.1 (Ne.symm h.2))

instance : IsAntisymm ERow dateGt :=
  ⟨fun _ _ h h' => absurd (lt_trans h h') (lt_irrefl _)⟩

/-- With pairwise-distinct dates, sorting descending is exactly the reversal
of sorting ascending. -/
theorem sortDesc_eq_reverse_sortAsc (g : List ERow)
    (hnd : (g.map (·.date)).Nodup) : sortDesc g = (sortAsc g).reverse := by
  have hperm1 : List.Perm (sortDesc g) g := List.perm_insertionSort dateGe g
  have hperm2 : List.Perm ((sortAsc g).reverse) g :=
    ((sortAsc g).reverse_perm).trans (List.perm_insertionSort dateLe g)
  have hnd1 : ((sortDesc g).map (·.date)).Nodup :=
    ((hperm1.map (·.date)).nodup_iff).mpr hnd
  have hnd2 : (((sortAsc g).reverse).map (·.date)).Nodup :=
    ((hperm2.map (·.date)).nodup_iff).mpr hnd
  have hs1 : List.Pairwise dateGt (sortDesc g) :=
    sorted_dateGt_of_sorted_dateGe _ (List.sorted_insertionSort dateGe g) hnd1
  have hs2 : List.Pairwise dateGt ((sortAsc g).reverse) := by
    refine sorted_dateGt_of_sorted_dateGe _ ?_ hnd2
    rw [List.pairwise_reverse]
    exact List.sorted_insertionSort dateLe g
  exact List.eq_of_perm_of_sorted (hperm1.trans hperm2.symm) hs1 hs2

/-- C4: with distinct dates inside the group — guaranteed upstream by the
`(Store, Date)` uniqueness invariant — the leading windowed sum `<F>_fw`
(computed after sorting by descending date) coincides with the trailing
windowed sum applied to the time-reversed group sequence. -/
theorem fwd_eq_bwd_on_reversed (g : List ERow)
    (hnd : (g.map (·.date)).Nodup) :
    fwdSums g = trailingSum 7 (((sortAsc g).reverse).map (·.f)) := by
  unfold fwdSums
  rw [sortDesc_eq_reverse_sortAsc g hnd]

/-- Witness for `fwd_eq_bwd_on_reversed` on a concrete 3-row group. -/
theorem fwd_eq_bwd_on_reversed_witness :
    (([⟨1, 10, 1⟩, ⟨1, 11, 0⟩, ⟨1, 12, 1⟩] : List ERow).map (·.date)).Nodup ∧
      fwdSums [⟨1, 10, 1⟩, ⟨1, 11, 0⟩, ⟨1, 12, 1⟩] =
        trailingSum 7 (((sortAsc [⟨1, 10, 1⟩, ⟨1, 11, 0⟩, ⟨1, 12, 1⟩]).reverse).map (·.f)) :=
  ⟨by decide, fwd_eq_bwd_on_reversed [⟨1, 10, 1⟩, ⟨1, 11, 0⟩, ⟨1, 12, 1⟩] (by decide)⟩

theorem sum_bounds_of_indicator (l : List Int) (h : ∀ x ∈ l, x = 0 ∨ x = 1) :
    0 ≤ l.sum ∧ l.sum ≤ l.length := by
  induction l with
  | nil => simp
  | cons x xs ih =>
    obtain ⟨ih0, ih1⟩ := ih (fun y hy => h y (List.mem_cons_of_mem x hy))
    rcases h x (List.mem_cons_self x xs) with hx | hx <;>
      simp only [List.sum_cons, List.length_cons, hx] <;>
      constructor <;> push_cast <;> omega

theorem trailingSum_bounds (xs : List Int) (h : ∀ x ∈ xs, x = 0 ∨ x = 1) :
    ∀ v ∈ trailingSum 7 xs, 0 ≤ v ∧ v ≤ 7 := by
  intro v hv
  unfold trailingSum at hv
  obtain ⟨i, hi, hval⟩ := List.mem_map.mp hv
  have hwin : ((xs.take (i + 1)).drop (i + 1 - 7)).Sublist xs :=
    (List.drop_sublist _ _).trans (List.take_sublist _ _)
  have hmem : ∀ x ∈ (xs.take (i + 1)).drop (i + 1 - 7), x = 0 ∨ x = 1 :=
    fun x hx => h x (hwin.subset hx)
  have hlen : ((xs.take (i + 1)).drop (i + 1 - 7)).length ≤ 7 := by
    rw [List.length_drop, List.length_take]
    omega
  obtain ⟨h0, h1⟩ := sum_bounds_of_indicator _ hmem
  rw [← hval]
  exact ⟨h0, le_trans h1 (by exact_mod_cast hlen)⟩

theorem trailingSum_head (x : Int) (l : List Int) :
    (trailingSum 7 (x :: l)).head? = some x := by
  unfold trailingSum
  rw [List.length_cons, List.range_succ_eq_map]
  simp

/-- C5: with indicator values in `{0, 1}`, every `<F>_bw` and `<F>_fw` value
lies in `[0, 7]`, and at the first row of the group (in ascending date order)
`<F>_bw` is the row's own indicator value, since `min_periods=1` allows the
partial window of a single row. -/
theorem rolling_window_bounds (g : List ERow) (hf : ∀ r ∈ g, r.f = 0 ∨ r.f = 1) :
    (∀ v ∈ bwdSums g, 0 ≤ v ∧ v ≤ 7) ∧
    (∀ v ∈ fwdSums g, 0 ≤ v ∧ v ≤ 7) ∧
    (∀ r l, sortAsc g = r :: l → (bwdSums g).head? = some r.f) := by
  have hasc : ∀ x ∈ (sortAsc g).map (·.f), x = 0 ∨ x = 1 := by
    intro x hx
    obtain ⟨r, hr, hrx⟩ := List.mem_map.mp hx
    rw [← hrx]
    exact hf r ((List.perm_insertionSort dateLe g).subset hr)
  have hdesc : ∀ x ∈ (sortDesc g).map (·.f), x = 0 ∨ x = 1 := by
    intro x hx
    obtain ⟨r, hr, hrx⟩ := List.mem_map.mp hx
    rw [← hrx]
    exact hf r ((List.perm_insertionSort dateGe g).subset hr)
  refine ⟨trailingSum_bounds _ hasc, trailingSum_bounds _ hdesc, ?_⟩
  intro r l hsort
  unfold bwdSums
  rw [hsort, List.map_cons]
  exact trailingSum_head r.f (l.map (·.f))

/-- Witness for `rolling_window_bounds` on a concrete 3-row group. -/
theorem rolling_window_bounds_witness :
    (∀ r ∈ ([⟨1, 10, 1⟩, ⟨1, 11, 0⟩, ⟨1, 12, 1⟩] : List ERow), r.f = 0 ∨ r.f = 1) ∧
      ((∀ v ∈ bwdSums [⟨1, 10, 1⟩, ⟨1, 11, 0⟩, ⟨1, 12, 1⟩], 0 ≤ v ∧ v ≤ 7) ∧
      (∀ v ∈ fwdSums [⟨1, 10, 1⟩, ⟨1, 11, 0⟩, ⟨1, 12, 1⟩], 0 ≤ v ∧ v ≤ 7) ∧
      (∀ r l, sortAsc [⟨1, 10, 1⟩, ⟨1, 11, 0⟩, ⟨1, 12, 1⟩] = r :: l →
        (bwdSums [⟨1, 10, 1⟩, ⟨1, 11, 0⟩, ⟨1, 12, 1⟩]).head? = some r.f)) :=
  ⟨by decide, rolling_window_bounds [⟨1, 10, 1⟩, ⟨1, 11, 0⟩, ⟨1, 12, 1⟩] (by decide)⟩

/- ## Table joiner (`merge` helper, notebook lines 245-247)

`def merge(df, right, left_on, ...): return df.merge(right, how='left', ...)`

A left-outer join: each left row is emitted once per matching right row, or
once with a missing right side when no right row matches. -/

/-- A keyed row for the join model: a key column and one payload column. -/
structure JRow where
  key : Int
  val : Int
deriving DecidableEq, Repr

/-- The right-table rows matching a left row's key. -/
def rightMatches (right : List JRow) (l : JRow) : List JRow :=
  right.filter (fun r => r.key == l.key)

/-- Source: `df.merge(right, how='left', ...)`: left-outer join with fan-out; an
unmatched left row appears once, paired with a missing right side. -/
def leftJoin (left right : List JRow) : List (JRow × Option JRow) :=
  left.flatMap (fun l =>
    match rightMatches right l with
    | [] => [(l, none)]
    | ms => ms.map (fun r => (l, some r)))

/-- The right table has unique keys. -/
def uniqueKeys (t : List JRow) : Prop := (t.map (·.key)).Nodup

instance (t : List JRow) : Decidable (uniqueKeys t) := by
  unfold uniqueKeys; infer_instance

theorem leftJoin_length (left right : List JRow) :
    (leftJoin left right).length =
      (left.map (fun l => max 1 (rightMatches right l).length)).sum := by
  induction left with
  | nil => rfl
  | cons l ls ih =>
    unfold leftJoin at ih ⊢
    rw [List.flatMap_cons, List.length_append, ih, List.map_cons, List.sum_cons]
    congr 1
    cases hm : rightMatches right l with
    | nil => simp
    | cons m ms =>
      rw [List.length_map, Nat.max_eq_right (by simp : 1 ≤ (m :: ms).length)]

theorem sum_map_max_ge (left : List JRow) (right : List JRow) :
    left.length ≤ (left.map (fun l => max 1 (rightMatches right l).length)).sum := by
  induction left with
  | nil => simp
  | cons l ls ih =>
    rw [List.map_cons, List.sum_cons, List.length_cons]
    have : 1 ≤ max 1 (rightMatches right l).length := le_max_left _ _
    omega

theorem sum_map_max_eq_iff (left : List JRow) (right : List JRow) :
    (left.map (fun l => max 1 (rightMatches right l).length)).sum = left.length ↔
      ∀ l ∈ left, (rightMatches right l).length ≤ 1 := by
  induction left with
  | nil => simp
  | cons l ls ih =>
    rw [List.map_cons, List.sum_cons, List.length_cons]
    constructor
    · intro h
      have hge := sum_map_max_ge ls right
      have h1 : 1 ≤ max 1 (rightMatches right l).length := le_max_left _ _
      have hl : max 1 (rightMatches right l).length = 1 := by omega
      have hls : (ls.map (fun l => max 1 (rightMatches right l).length)).sum = ls.length := by
        omega
      intro x hx
      rcases List.mem_cons.mp hx with hx | hx
      · rw [hx]; omega
      · exact (ih.mp hls) x hx
    · intro h
      have hl : (rightMatches right l).length ≤ 1 := h l (List.mem_cons_self _ _)
      have hls := ih.mpr (fun x hx => h x (List.mem_cons_of_mem _ hx))
      have : max 1 (rightMatches right l).length = 1 := by omega
      omega

theorem filter_key_length_le_one (right : List JRow) (hnd : uniqueKeys right)
    (c : Int) : (right.filter (fun r => r.key == c)).length ≤ 1 := by
  induction right with
  | nil => simp
  | cons r rs ih =>
    unfold uniqueKeys at hnd ih
    rw [List.map_cons, List.nodup_cons] at hnd
    rw [List.filter_cons]
    split
    · next hkey =>
      simp only [List.length_cons]
      have : rs.filter (fun r => r.key == c) = [] := by
        rw [List.filter_eq_nil_iff]
        intro a ha hac
        apply hnd.1
        rw [List.mem_map]
        refine ⟨a, ha, ?_⟩
        have h1 : a.key = c := by simpa using hac
        have h2 : r.key = c := by simpa using hkey
        rw [h1, h2]
      rw [this]
      simp
    · exact le_trans (ih hnd.2) (le_refl _)

/-- C7 counterexample: `len(join) = len(left)` does NOT imply that the right
table has unique keys — here the duplicated right key 1 matches no left row,
so the join is row-for-row even though the right keys are not unique. -/
theorem join_eq_without_unique_keys :
    (leftJoin [⟨2, 0⟩] [⟨1, 0⟩, ⟨1, 1⟩]).length = ([⟨2, 0⟩] : List JRow).length ∧
      ¬ uniqueKeys [⟨1, 0⟩, ⟨1, 1⟩] := by decide

/-- C7 amended: `len(join(left, right)) ≥ len(left)` always, each left row
contributing `max 1 (number of matching right rows)` output rows; equality
holds iff every left row matches at most one right row — for which unique
right keys is sufficient (but not necessary). -/
theorem join_cardinality (left right : List JRow) :
    left.length ≤ (leftJoin left right).length ∧
    (leftJoin left right).length =
      (left.map (fun l => max 1 (rightMatches right l).length)).sum ∧
    ((leftJoin left right).length = left.length ↔
      ∀ l ∈ left, (rightMatches right l).length ≤ 1) ∧
    (uniqueKeys right → (leftJoin left right).length = left.length) := by
  have hlen := leftJoin_length left right
  refine ⟨?_, hlen, ?_, ?_⟩
  · rw [hlen]; exact sum_map_max_ge left right
  · rw [hlen]; exact sum_map_max_eq_iff left right
  · intro hnd
    rw [hlen, sum_map_max_eq_iff left right]
    intro l _
    exact filter_key_length_le_one right hnd l.key

/-- Witness for `join_cardinality` at concrete one-row tables. -/
theorem join_cardinality_witness :
    ([⟨5, 0⟩] : List JRow).length ≤ (leftJoin [⟨5, 0⟩] [⟨5, 9⟩]).length ∧
    (leftJoin [⟨5, 0⟩] [⟨5, 9⟩]).length =
      (([⟨5, 0⟩] : List JRow).map
        (fun l => max 1 (rightMatches [⟨5, 9⟩] l).length)).sum ∧
    ((leftJoin [⟨5, 0⟩] [⟨5, 9⟩]).length = ([⟨5, 0⟩] : List JRow).length ↔
      ∀ l ∈ ([⟨5, 0⟩] : List JRow), (rightMatches [⟨5, 9⟩] l).length ≤ 1) ∧
    (uniqueKeys [⟨5, 9⟩] → (leftJoin [⟨5, 0⟩] [⟨5, 9⟩]).length = ([⟨5, 0⟩] : List JRow).length) :=
  join_cardinality [⟨5, 0⟩] [⟨5, 9⟩]

/- ## Partition splitter (notebook lines 844-847 and 892-895)

`train_df = train_df.sort_values(by='Date', ascending=True)` followed by
`valid_df = train_df[-num_valid:]` and `train_df = train_df[:-num_valid]`. -/

/-- A row of the assembled training table: a primary key and the `Date`. -/
structure PRow where
  pkey : Int
  date : Int
deriving DecidableEq, Repr

/-- Ascending `Date` order used by `sort_values(by='Date')`. -/
def pdateLe (a b : PRow) : Prop := a.date ≤ b.date

instance : DecidableRel pdateLe := fun a b => by unfold pdateLe; infer_instance

instance : IsTotal PRow pdateLe := ⟨fun a b => le_total a.date b.date⟩

instance : IsTrans PRow pdateLe := ⟨fun _ _ _ h h' => le_trans h h'⟩

/-- Source: `train_df.sort_values(by='Date', ascending=True)`. -/
def sortByDate (l : List PRow) : List PRow := List.insertionSort pdateLe l

/-- Python slice `l[-cut:]`: the last `cut` elements — except that `l[-0:]`
is `l[0:]`, the whole list. -/
def pySliceLast (cut : Nat) (l : List PRow) : List PRow :=
  if cut = 0 then l else l.drop (l.length - cut)

/-- Python slice `l[:-cut]`: all but the last `cut` elements — except that
`l[:-0]` is `l[:0]`, the empty list. -/
def pySliceInit (cut : Nat) (l : List PRow) : List PRow :=
  if cut = 0 then [] else l.take (l.length - cut)

/-- The split cell: sort by date, `valid = train[-cut:]`, `train = train[:-cut]`. -/
def splitTV (l : List PRow) (cut : Nat) : List PRow × List PRow :=
  (pySliceInit cut (sortByDate l), pySliceLast cut (sortByDate l))

/-- C8 counterexample: at `cut_count = 0` the Python negative-slice split
degenerates — `valid` is the WHOLE sorted table (not the last 0 rows) and
`train` is empty (not all remaining rows). -/
theorem split_zero_cut_degenerates :
    (splitTV [⟨1, 5⟩, ⟨2, 6⟩] 0).2.length = 2 ∧
      (splitTV [⟨1, 5⟩, ⟨2, 6⟩] 0).1 = [] := by decide

/-- C8 amended: for `cut_count ≥ 1`, `valid` is the last
`min cut_count len` rows of the date-sorted table and `train` the remaining
earlier rows: their concatenation is the sorted table, which is a permutation
of the pre-split table; every train date is ≤ every valid date; and when the
pre-split rows are distinct the two parts are disjoint.  (At `cut_count = 0`
the code instead returns the whole table as `valid` and an empty `train`.) -/
theorem split_ordered (l : List PRow) (cut : Nat) (hc : 1 ≤ cut) :
    (splitTV l cut).1 ++ (splitTV l cut).2 = sortByDate l ∧
    List.Perm ((splitTV l cut).1 ++ (splitTV l cut).2) l ∧
    (splitTV l cut).2.length = min cut l.length ∧
    (∀ a ∈ (splitTV l cut).1, ∀ b ∈ (splitTV l cut).2, a.date ≤ b.date) ∧
    (l.Nodup → ∀ x ∈ (splitTV l cut).1, x ∉ (splitTV l cut).2) := by
  have hcz : cut ≠ 0 := by omega
  have happ : (splitTV l cut).1 ++ (splitTV l cut).2 = sortByDate l := by
    unfold splitTV pySliceInit pySliceLast
    rw [if_neg hcz, if_neg hcz]
    exact List.take_append_drop _ _
  have hperm : List.Perm ((splitTV l cut).1 ++ (splitTV l cut).2) l := by
    rw [happ]
    exact List.perm_insertionSort pdateLe l
  have hslen : (sortByDate l).length = l.length := by
    unfold sortByDate
    exact List.length_insertionSort pdateLe l
  refine ⟨happ, hperm, ?_, ?_, ?_⟩
  · unfold splitTV pySliceLast
    simp only [if_neg hcz]
    rw [List.length_drop, hslen]
    omega
  · intro a ha b hb
    have hsorted : List.Pairwise pdateLe (sortByDate l) :=
      List.sorted_insertionSort pdateLe l
    rw [← happ, List.pairwise_append] at hsorted
    exact hsorted.2.2 a ha b hb
  · intro hnd x hx hx'
    have hnds : (sortByDate l).Nodup :=
      ((List.perm_insertionSort pdateLe l).nodup_iff).mpr hnd
    rw [← happ, List.nodup_append] at hnds
    exact hnds.2.2 hx hx'

/-- Witness for `split_ordered` on a concrete 3-row table with `cut = 1`. -/
theorem split_ordered_witness :
    1 ≤ 1 ∧
      ((splitTV [⟨1, 5⟩, ⟨2, 6⟩, ⟨3, 4⟩] 1).1 ++ (splitTV [⟨1, 5⟩, ⟨2, 6⟩, ⟨3, 4⟩] 1).2 =
        sortByDate [⟨1, 5⟩, ⟨2, 6⟩, ⟨3, 4⟩] ∧
      List.Perm
        ((splitTV [⟨1, 5⟩, ⟨2, 6⟩, ⟨3, 4⟩] 1).1 ++ (splitTV [⟨1, 5⟩, ⟨2, 6⟩, ⟨3, 4⟩] 1).2)
        [⟨1, 5⟩, ⟨2, 6⟩, ⟨3, 4⟩] ∧
      (splitTV [⟨1, 5⟩, ⟨2, 6⟩, ⟨3, 4⟩] 1).2.length =
        min 1 ([⟨1, 5⟩, ⟨2, 6⟩, ⟨3, 4⟩] : List PRow).length ∧
      (∀ a ∈ (splitTV [⟨1, 5⟩, ⟨2, 6⟩, ⟨3, 4⟩] 1).1,
        ∀ b ∈ (splitTV [⟨1, 5⟩, ⟨2, 6⟩, ⟨3, 4⟩] 1).2, a.date ≤ b.date) ∧
      (([⟨1, 5⟩, ⟨2, 6⟩, ⟨3, 4⟩] : List PRow).Nodup →
        ∀ x ∈ (splitTV [⟨1, 5⟩, ⟨2, 6⟩, ⟨3, 4⟩] 1).1,
          x ∉ (splitTV [⟨1, 5⟩, ⟨2, 6⟩, ⟨3, 4⟩] 1).2)) :=
  ⟨le_refl 1, split_ordered [⟨1, 5⟩, ⟨2, 6⟩, ⟨3, 4⟩] 1 (le_refl 1)⟩

/- ## Missing group/time keys (notebook lines 603-606)

The event-distance cell starts with `df = df.sort_values(by=['Store', 'Date'])`
and proceeds straight to the masking: there is no validation of the key
columns, and no `GroupingError` (or any error type) exists anywhere in the
notebook.  To settle the failure-mode claim, key columns are modelled as
optional values (pandas `NaN`) and the cell as an `Except`-valued runner. -/

/-- The error the specification says should abort the run. -/
inductive GroupingError where
  | missingKey
deriving DecidableEq, Repr

/-- A frame whose key columns may hold missing values. -/
structure FrameO where
  n : Nat
  store : Nat → Option Int
  date : Nat → Option Int
  f : Nat → Int

/-- Source: `Store.diff() != 0` with pandas `NaN` semantics: a difference involving a
missing store is `NaN`, and `NaN != 0` is true. -/
def firstMaskO (fr : FrameO) (i : Nat) : Bool :=
  i == 0 ||
    match fr.store (i - 1), fr.store i with
    | some a, some b => a != b
    | _, _ => true

/-- The shifted-diff last-row mask with pandas `NaN` semantics. -/
def lastMaskO (fr : FrameO) (i : Nat) : Bool :=
  i + 1 == fr.n ||
    match fr.store (i + 1), fr.store i with
    | some a, some b => a != b
    | _, _ => true

/-- Column `tmp` on an optional-key frame: starts as the (possibly missing) `Date`
and is masked to missing at interior zero-indicator rows. -/
def tmpColO (fr : FrameO) (i : Nat) : Option Int :=
  if fr.f i = 0 ∧ firstMaskO fr i = false ∧ lastMaskO fr i = false then none
  else fr.date i

/-- Column `After` on an optional-key frame: `Date - ffill(tmp)`, missing whenever
either operand is missing. -/
def afterFO (fr : FrameO) (i : Nat) : Option Int :=
  match fr.date i, ffill (tmpColO fr) i with
  | some d, some a => some (d - a)
  | _, _ => none

/-- The event-distance cell as a fallible runner.  Modelled directly from the
source: the cell performs no key validation whatsoever, so it always returns
its derived column and can never produce a `GroupingError`. -/
def getElapsedChecked (fr : FrameO) : Except GroupingError (Nat → Option Int) :=
  Except.ok (afterFO fr)

/-- A 3-row single-store frame whose `Date` is missing at row 1. -/
def exFrameC9 : FrameO where
  n := 3
  store := fun _ => some 1
  date := fun i => if i = 0 then some 10 else if i = 2 then some 12 else none
  f := fun _ => 0

/-- C9 counterexample: on a frame with a missing time key the event-distance
computation does NOT fail — it returns its derived column (e.g. `After = 0`
at row 0), so no `GroupingError` is raised. -/
theorem missing_key_no_error :
    exFrameC9.date 1 = none ∧ 1 < exFrameC9.n ∧
      (getElapsedChecked exFrameC9).isOk = true ∧
      afterFO exFrameC9 0 = some 0 := by decide

/-- C9 amended: the event-distance cell performs no key validation: it never
raises for any input, and a missing time key simply propagates — the derived
`After` value at a row with a missing `Date` is itself missing. -/
theorem missing_key_propagates (fr : FrameO) :
    (getElapsedChecked fr).isOk = true ∧
      ∀ i, fr.date i = none → afterFO fr i = none := by
  refine ⟨rfl, fun i hd => ?_⟩
  unfold afterFO
  rw [hd]

/-- Witness for `missing_key_propagates` at the concrete frame and row 1. -/
theorem missing_key_propagates_witness :
    (getElapsedChecked exFrameC9).isOk = true ∧ exFrameC9.date 1 = none ∧
      afterFO exFrameC9 1 = none :=
  ⟨(missing_key_propagates exFrameC9).1, by decide,
    (missing_key_propagates exFrameC9).2 1 (by decide)⟩

/- ## Train/test leakage through the appended dataframe (notebook line 542)

`df = train_df.append(test_df, ignore_index=True)` — the event-distance and
rolling features are computed over the concatenation, then re-merged onto
`train_df`/`test_df` by `(Store, Date)`. -/

/-- The appended-and-sorted frame over which the derived features are
computed: `train_df.append(test_df)` then `sort_values(['Store', 'Date'])`. -/
def appendedFrame (train test : List ERow) : Frame :=
  frameOfList (sortRows (train ++ test))

/-- C10: the derived features on a test row depend on train rows of the same
store.  Two runs whose train partitions differ only in the indicator of one
train row (date 11) produce different `After_F` values at the SAME unchanged
test row (store 1, date 12): 1 in the first run, 2 in the second. -/
theorem train_rows_leak_into_test_features :
    (sortRows ([⟨1, 10, 0⟩, ⟨1, 11, 1⟩] ++ [⟨1, 12, 0⟩, ⟨1, 13, 0⟩])).getD 2 ⟨0, 0, 0⟩ =
        ⟨1, 12, 0⟩ ∧
    (sortRows ([⟨1, 10, 0⟩, ⟨1, 11, 0⟩] ++ [⟨1, 12, 0⟩, ⟨1, 13, 0⟩])).getD 2 ⟨0, 0, 0⟩ =
        ⟨1, 12, 0⟩ ∧
    afterF (appendedFrame [⟨1, 10, 0⟩, ⟨1, 11, 1⟩] [⟨1, 12, 0⟩, ⟨1, 13, 0⟩]) 2 = some 1 ∧
    afterF (appendedFrame [⟨1, 10, 0⟩, ⟨1, 11, 0⟩] [⟨1, 12, 0⟩, ⟨1, 13, 0⟩]) 2 = some 2 ∧
    afterF (appendedFrame [⟨1, 10, 0⟩, ⟨1, 11, 1⟩] [⟨1, 12, 0⟩, ⟨1, 13, 0⟩]) 2 ≠
      afterF (appendedFrame [⟨1, 10, 0⟩, ⟨1, 11, 0⟩] [⟨1, 12, 0⟩, ⟨1, 13, 0⟩]) 2 := by
  decide

end Rossmann
